import Mathlib

/-!
# A shallow embedding of `lull::FlatbufferWriter`
(`src/lullaby/util/flatbuffer_writer.h`)

The writer builds a flatbuffer "bottom-up" inside an `InwardBuffer`: scratch
per-field records accumulate in "low" (front) memory while finished binary
objects accumulate in "high" (back) memory, growing backwards.

## The buffer model

`InwardBuffer` itself is not part of the sources here; its interface is the
external-collaborator contract of spec §6.  Modelled from the spec:

* back memory is a list of bytes kept in *forward read order*: a back write
  of a byte sequence prepends that sequence, because back memory grows
  backwards from the end of the buffer.  `BackSize` is the list length.
  A back "position" `p` denotes the address `bufferEnd - p`, i.e. list index
  `back.length - p` once writing has finished.
* front memory holds the scratch entries the writer stores there: 8-byte
  `Field` records and 4-byte vector references.  We keep them as structured
  entries (the writer only ever parses front memory back at these two types);
  `frontBytes` recovers the byte size `FrontSize` for the leak check, and
  table/vector marks count entries.
-/

namespace Lull

/-- Little-endian bytes of a value stored as `uint16_t`
(the cast truncates mod 2^16, which the byte decomposition performs). -/
def u16le (v : Nat) : List Nat := [v % 256, v / 256 % 256]

/-- Little-endian bytes of a value stored as `uint32_t`
(the cast truncates mod 2^32, which the byte decomposition performs). -/
def u32le (v : Nat) : List Nat :=
  [v % 256, v / 256 % 256, v / 65536 % 256, v / 16777216 % 256]

/-- Read a little-endian `uint16_t` at byte index `j` of a forward-order list. -/
def readU16 (l : List Nat) (j : Nat) : Nat :=
  l.getD j 0 + 256 * l.getD (j + 1) 0

/-- Read a little-endian `uint32_t` at byte index `j` of a forward-order list. -/
def readU32 (l : List Nat) (j : Nat) : Nat :=
  l.getD j 0 + 256 * l.getD (j + 1) 0 + 65536 * l.getD (j + 2) 0 +
    16777216 * l.getD (j + 3) 0

/-- The scratch record `FlatbufferWriter::Field`
`{uint16_t index; uint8_t size; uint8_t align; uint32_t offset;}` (8 bytes). -/
structure Field where
  index : Nat
  size : Nat
  align : Nat
  offset : Nat
deriving DecidableEq, Repr

/-- One entry of front (scratch) memory: either a `Field` record (8 bytes) or a
`uint32_t` vector reference (4 bytes) pushed by `AddVectorReference`. -/
inductive FrontEntry where
  | field (f : Field)
  | vecRef (r : Nat)
deriving DecidableEq, Repr

/-- Byte size of a front entry (`sizeof(Field) = 8`, `sizeof(uint32_t) = 4`). -/
def entryBytes : FrontEntry → Nat
  | .field _ => 8
  | .vecRef _ => 4

/-- `InwardBuffer::FrontSize` in bytes. -/
def frontBytes (l : List FrontEntry) : Nat := (l.map entryBytes).sum

/-- The writer state: the `InwardBuffer` as used by `FlatbufferWriter`. -/
structure Writer where
  front : List FrontEntry
  back : List Nat
deriving DecidableEq, Repr

/-- `InwardBuffer::BackSize`. -/
def Writer.backSize (w : Writer) : Nat := w.back.length

/-- `InwardBuffer::WriteBack` of a byte sequence: back memory grows
backwards, so in forward read order the bytes are prepended. -/
def writeBackBytes (bs : List Nat) (w : Writer) : Writer :=
  { w with back := bs ++ w.back }

/-- `InwardBuffer::WriteFront` of one scratch entry. -/
def writeFront (e : FrontEntry) (w : Writer) : Writer :=
  { w with front := w.front ++ [e] }

/-- `FlatbufferWriter::Prealign`: pad back memory with zero bytes until
`BackSize % alignment == 0`.  The loop writes exactly
`(alignment - BackSize % alignment) % alignment` zero bytes. -/
def prealign (alignment : Nat) (w : Writer) : Writer :=
  writeBackBytes (List.replicate ((alignment - w.back.length % alignment) % alignment) 0) w

/-- `FlatbufferWriter::AddValueField` (template overload): prealign, write the
value bytes at back, record a `Field` whose offset is the new `BackSize`.
`bytes` is the little-endian image of the value, of length `sizeof(T)`. -/
def addValueField (index size align : Nat) (bytes : List Nat) (w : Writer) : Writer :=
  let w := prealign align w
  let w := writeBackBytes bytes w
  writeFront (.field { index := index % 65536, size := size % 256, align := align % 256,
                       offset := w.back.length % 4294967296 }) w

/-- `FlatbufferWriter::AddReferenceField`: record a `Field` with `size = 0`
(reference marker) holding the referent's back position. -/
def addReferenceField (index reference : Nat) (w : Writer) : Writer :=
  writeFront (.field { index := index % 65536, size := 0, align := 0,
                       offset := reference % 4294967296 }) w

/-- `FlatbufferWriter::WriteReference`: write the 4-byte relative offset
`(BackSize + 4) - reference` (as `uint32_t`; the `size_t` subtraction followed
by the cast equals the integer difference taken mod 2^32). -/
def writeReference (reference : Nat) (w : Writer) : Writer :=
  let e := w.back.length + 4
  writeBackBytes (u32le (((e : Int) - (reference : Int)) % 4294967296).toNat) w

/-- `FlatbufferWriter::CreateString`: empty strings share the null reference;
otherwise write terminator, raw bytes, then the 4-byte length, and return the
new `BackSize` as the string's position. -/
def createString (s : List Nat) (w : Writer) : Nat × Writer :=
  if s = [] then (0, w)
  else
    let w := writeBackBytes [0] w
    let w := writeBackBytes s w
    let w := writeBackBytes (u32le s.length) w
    (w.back.length, w)

/-- `FlatbufferWriter::String`: serialize the string and record the reference
field at slot `offset / 2`. -/
def stringField (s : List Nat) (offset : Nat) (w : Writer) : Writer :=
  let r := createString s w
  addReferenceField (offset / 2) r.1 r.2

/-- `FlatbufferWriter::StartTable` / `StartVector`: the current front mark
(in the model, the number of scratch entries). -/
def startMark (w : Writer) : Nat := w.front.length

/-- The per-record loop of `FlatbufferWriter::WriteTable`, over the ledger
segment `[start, end)` of front memory.  In the source the loop mutates the
`Field` records in place; here it returns the updated segment alongside the
writer and the `object_size` / `max_field` accumulators.  For each record:
track `max_field`; a null reference (`size = 0`, `offset = 0`) is skipped; a
pending reference (`size = 0`) is finalized by `WriteReference` and its offset
is re-pointed at the new `BackSize` (`sizeof(field->offset) = 4` accrues); an
inline value accrues its declared size.  A non-`Field` entry in the segment is
outside the caller contract and is passed through unchanged. -/
def writeTableFields : List FrontEntry → Writer → Nat → Nat →
    List FrontEntry × Writer × Nat × Nat
  | [], w, objectSize, maxField => ([], w, objectSize, maxField)
  | .field f :: rest, w, objectSize, maxField =>
    let maxField := max maxField f.index
    if f.size = 0 ∧ f.offset = 0 then
      let r := writeTableFields rest w objectSize maxField
      (.field f :: r.1, r.2)
    else if f.size = 0 then
      let w := writeReference f.offset w
      let f := { f with offset := w.back.length % 4294967296 }
      let r := writeTableFields rest w (objectSize + 4) maxField
      (.field f :: r.1, r.2)
    else
      let r := writeTableFields rest w (objectSize + f.size) maxField
      (.field f :: r.1, r.2)
  | e :: rest, w, objectSize, maxField =>
    let r := writeTableFields rest w objectSize maxField
    (e :: r.1, r.2)

/-- `FlatbufferWriter::WriteTable`: run the field loop (accumulators start at
`object_size = 0`, `max_field = 2`), compute
`vtable_size = (max_field + 1) * sizeof(uint16_t)`, write the `int32_t` offset
to the vtable (its two's-complement little-endian bytes coincide with the
`uint32_t` image of the value mod 2^32), and return the new `BackSize` as the
table root.  Result: (updated segment, writer, object_size, vtable_size,
root_offset). -/
def writeTable (entries : List FrontEntry) (w : Writer) :
    List FrontEntry × Writer × Nat × Nat × Nat :=
  let r := writeTableFields entries w 0 2
  let vtableSize := (r.2.2.2 + 1) * 2
  let w := writeBackBytes (u32le vtableSize) r.2.1
  (r.1, w, r.2.2.1, vtableSize, w.back.length)

/-- `FlatbufferWriter::CreateVTable`: zero-fill the offset entries
(`vtable_size - 2 * sizeof(uint16_t)` bytes), remember the resulting
`BackSize` as `vtable_offset`, then write the object size and the vtable size
as `uint16_t`. -/
def createVTable (vtableSize objectSize : Nat) (w : Writer) : Nat × Writer :=
  let offsetsSize := vtableSize - 2 * 2
  let w := writeBackBytes (List.replicate offsetsSize 0) w
  let vtableOffset := w.back.length
  let w := writeBackBytes (u16le objectSize) w
  let w := writeBackBytes (u16le vtableSize) w
  (vtableOffset, w)

/-- Store a `uint16_t` at byte index `j` of forward-order back memory
(the in-place `offsets[...] = offset` store of `UpdateVTable`). -/
def setU16 (l : List Nat) (j v : Nat) : List Nat :=
  (l.set j (v % 256)).set (j + 1) (v / 256 % 256)

/-- `FlatbufferWriter::UpdateVTable` over the (already finalized) ledger
segment: for every record with a non-zero offset, store
`uint16_t(root_offset - field->offset)` at `offsets[field->index - 2]`.
The `offsets` pointer is `BackAt(vtable_offset)`, i.e. forward byte index
`back.length - vtableOffset`; entry `k` lives at byte index
`back.length - vtableOffset + 2 * k`.  The `size_t` subtraction followed by
the `uint16_t` cast equals the integer difference taken mod 2^16. -/
def updateVTableFields (entries : List FrontEntry) (rootOffset vtableOffset : Nat)
    (back : List Nat) : List Nat :=
  match entries with
  | [] => back
  | .field f :: rest =>
    let back :=
      if f.offset = 0 then back
      else setU16 back (back.length - vtableOffset + 2 * (f.index - 2))
             ((((rootOffset : Int) - (f.offset : Int)) % 65536).toNat)
    updateVTableFields rest rootOffset vtableOffset back
  | _ :: rest => updateVTableFields rest rootOffset vtableOffset back

/-- `FlatbufferWriter::EndTable`: process the ledger entries written since
`start`, emit the object and its vtable, erase the consumed ledger entries
from front memory (`EraseFront(end - start)`), and return the table root. -/
def endTable (start : Nat) (w : Writer) : Nat × Writer :=
  let entries := w.front.drop start
  let t := writeTable entries w
  let v := createVTable t.2.2.2.1 t.2.2.1 t.2.1
  let back := updateVTableFields t.1 t.2.2.2.2 v.1 v.2.back
  (t.2.2.2.2, { front := w.front.take start, back := back })

/-- `FlatbufferWriter::AddVectorValue`: write the element bytes directly at
back. -/
def addVectorValue (bytes : List Nat) (w : Writer) : Writer :=
  writeBackBytes bytes w

/-- `FlatbufferWriter::AddVectorReference`: push the reference (`uint32_t`)
onto front memory. -/
def addVectorReference (reference : Nat) (w : Writer) : Writer :=
  { w with front := w.front ++ [.vecRef (reference % 4294967296)] }

/-- The reference fix-up loop of `FlatbufferWriter::EndVector`: `num` times,
read the topmost front `uint32_t`, finalize it with `WriteReference`, and
erase it (`EraseFront(sizeof(uint32_t))`).  Finding anything but a vector
reference on top is outside the caller contract; the model stops there. -/
def endVectorLoop : Nat → Writer → Writer
  | 0, w => w
  | Nat.succ n, w =>
    match w.front.getLast? with
    | some (.vecRef r) =>
      let w' := writeReference r w
      endVectorLoop n { w' with front := w'.front.dropLast }
    | _ => w

/-- `FlatbufferWriter::EndVector`: fix up pending references when the front
mark moved, then either return the null vector (count 0) or write the 4-byte
element count and return the new `BackSize` as the vector's position. -/
def endVector (start num : Nat) (w : Writer) : Nat × Writer :=
  let e := w.front.length
  let w := if start ≠ e then endVectorLoop num w else w
  if num = 0 then (0, w)
  else
    let w := writeBackBytes (u32le num) w
    (w.back.length, w)

/-- `FlatbufferWriter::VectorOfScalars`: iterate the input in reverse
(`rbegin` to `rend`), appending each element's bytes at back, then finish the
vector and record the reference at slot `offset / 2`.  `enc` is the
little-endian byte image of one element (`WriteBack(*iter)`). -/
def vectorOfScalars {α : Type} (enc : α → List Nat) (value : List α)
    (offset : Nat) (w : Writer) : Writer :=
  let start := startMark w
  let w := value.reverse.foldl (fun acc v => addVectorValue (enc v) acc) w
  let r := endVector start value.length w
  addReferenceField (offset / 2) r.1 r.2

/-- `FlatbufferWriter::Finish`: write the root reference with the same
relative-offset computation as every other reference. -/
def finish (root : Nat) (w : Writer) : Writer :=
  writeReference root w

/-- `FlatbufferWriter::Union`: write the discriminant as a value field at slot
`(offset - 2) / 2` (`encBytes` is the byte image of the type value, of size
`sizeof(U)`); for the none value 0 record a null reference at slot
`offset / 2`, otherwise serialize the active variant as a nested table (the
per-type hook `SerializeFlatbuffer` runs between `StartTable` and `EndTable`)
and record its position.  In the source `offset - 2` is a `uint16_t`
subtraction; within the caller contract `offset ≥ 2`, where it agrees with
truncated subtraction on `Nat`. -/
def unionField (typeVal : Nat) (encBytes : List Nat) (talign : Nat)
    (hook : Writer → Writer) (offset : Nat) (w : Writer) : Writer :=
  let w := addValueField ((offset - 2) / 2) encBytes.length talign encBytes w
  if typeVal = 0 then
    addReferenceField (offset / 2) 0 w
  else
    let start := w.front.length
    let w' := hook w
    let r := endTable start w'
    addReferenceField (offset / 2) r.1 r.2

/-- `FlatbufferWriter::Reference(size_t, uint16_t)`: `CHECK_LE` fails fast
(modelled as `none`) when the reference exceeds the current back-extent size;
otherwise the reference field is recorded. -/
def referenceOp (reference offset : Nat) (w : Writer) : Option Writer :=
  if reference ≤ w.back.length then some (addReferenceField (offset / 2) reference w)
  else none

/-- `FlatbufferWriter::SerializeObject`: run one top-level
`StartTable` / hook / `EndTable` / `Finish` build.  Returns the final writer,
the returned pointer's back position (`BackAt(BackSize)` is the start of the
finished region, i.e. position `BackSize`), and whether the leftover-scratch
diagnostic fired.  Modelled from the spec: `LOG(DFATAL)` reports a defect
diagnostic and execution continues to the return. -/
def serializeObject (hook : Writer → Writer) (buffer : Writer) :
    Writer × Nat × Bool :=
  let start := frontBytes buffer.front
  let tableStart := buffer.front.length
  let w := hook buffer
  let r := endTable tableStart w
  let w := finish r.1 r.2
  let e := frontBytes w.front
  (w, w.back.length, start != e)

/-- Two ledger entries address distinct vtable slots whenever both denote
present fields.  `UpdateVTable` writes each present field's slot exactly once
under this condition. -/
def distinctSlots : FrontEntry → FrontEntry → Prop
  | .field fa, .field fb => fa.offset ≠ 0 → fb.offset ≠ 0 → fa.index ≠ fb.index
  | _, _ => True

instance : ∀ a b : FrontEntry, Decidable (distinctSlots a b) := fun a b => by
  cases a <;> cases b <;> unfold distinctSlots <;> infer_instance

/-! ## Basic lemmas about the byte-level primitives -/

theorem padModZero (a n : Nat) (ha : 0 < a) : ((a - n % a) % a + n) % a = 0 := by
  have hr : n % a < a := Nat.mod_lt _ ha
  rcases Nat.eq_zero_or_pos (n % a) with h0 | h0
  · simp only [h0, Nat.sub_zero, Nat.mod_self, Nat.zero_add]
  · have h1 : (a - n % a) % a = a - n % a := Nat.mod_eq_of_lt (by omega)
    rw [h1, Nat.add_mod]
    have h2 : (a - n % a) % a + n % a = a := by rw [h1]; omega
    rw [h2, Nat.mod_self]

theorem prealign_back_mod (a : Nat) (ha : 0 < a) (w : Writer) :
    (prealign a w).back.length % a = 0 := by
  simp only [prealign, writeBackBytes, List.length_append, List.length_replicate]
  exact padModZero a w.back.length ha

theorem getD_append_add (l1 l2 : List Nat) (k : Nat) :
    (l1 ++ l2).getD (l1.length + k) 0 = l2.getD k 0 := by
  simp [List.getD, List.getElem?_append_right (Nat.le_add_right l1.length k)]

theorem getD_append_lt (l1 l2 : List Nat) (k : Nat) (h : k < l1.length) :
    (l1 ++ l2).getD k 0 = l1.getD k 0 := by
  simp [List.getD, List.getElem?_append, h]

theorem getD_set_eq (l : List Nat) (j v : Nat) (h : j < l.length) :
    (l.set j v).getD j 0 = v := by
  simp [List.getD, List.getElem?_set, h]

theorem getD_set_ne (l : List Nat) (j k v : Nat) (h : j ≠ k) :
    (l.set j v).getD k 0 = l.getD k 0 := by
  simp [List.getD, List.getElem?_set, h]

theorem length_setU16 (l : List Nat) (j v : Nat) : (setU16 l j v).length = l.length := by
  simp [setU16]

theorem readU16_setU16_eq (l : List Nat) (j v : Nat) (h : j + 1 < l.length)
    (hv : v < 65536) : readU16 (setU16 l j v) j = v := by
  unfold readU16 setU16
  rw [getD_set_eq _ _ _ (by simpa using h),
      getD_set_ne _ _ _ _ (by omega), getD_set_eq _ _ _ (by omega)]
  omega

theorem readU16_setU16_ne (l : List Nat) (j p v : Nat)
    (h : p + 2 ≤ j ∨ j + 2 ≤ p) : readU16 (setU16 l p v) j = readU16 l j := by
  unfold readU16 setU16
  rw [getD_set_ne _ _ _ _ (by omega), getD_set_ne _ _ _ _ (by omega),
      getD_set_ne _ _ _ _ (by omega), getD_set_ne _ _ _ _ (by omega)]

theorem readU16_u16le_append (v : Nat) (l : List Nat) :
    readU16 (u16le v ++ l) 0 = v % 65536 := by
  simp [readU16, u16le, List.getD]
  omega

theorem readU32_u32le_append (v : Nat) (l : List Nat) :
    readU32 (u32le v ++ l) 0 = v % 4294967296 := by
  simp [readU32, u32le, List.getD]
  omega

theorem emod16_lt (x : Int) : (x % 65536).toNat < 65536 := by
  have h1 : 0 ≤ x % 65536 := Int.emod_nonneg x (by omega)
  have h2 : x % 65536 < 65536 := Int.emod_lt_of_pos x (by omega)
  omega

theorem emod16_eq (a b : Nat) (h1 : b ≤ a) (h2 : a - b < 65536) :
    (((a : Int) - (b : Int)) % 65536).toNat = a - b := by
  have hcast : (a : Int) - (b : Int) = ((a - b : Nat) : Int) := by omega
  rw [hcast, Int.emod_eq_of_lt (by omega) (by exact_mod_cast h2)]
  omega

theorem emod32_eq (a b : Nat) (h1 : b ≤ a) (h2 : a - b < 4294967296) :
    (((a : Int) - (b : Int)) % 4294967296).toNat = a - b := by
  have hcast : (a : Int) - (b : Int) = ((a - b : Nat) : Int) := by omega
  rw [hcast, Int.emod_eq_of_lt (by omega) (by exact_mod_cast h2)]
  omega

/-! ## Lemmas about the vtable update loop -/

theorem length_updateVTableFields (es : List FrontEntry) (root vt : Nat) :
    ∀ bk : List Nat, (updateVTableFields es root vt bk).length = bk.length := by
  induction es with
  | nil => intro bk; rfl
  | cons e rest ih =>
    intro bk
    cases e with
    | field f =>
      by_cases h0 : f.offset = 0
      · simp only [updateVTableFields, if_pos h0, ih]
      · simp only [updateVTableFields, if_neg h0, ih, length_setU16]
    | vecRef r => simp only [updateVTableFields, ih]

/-- Bytes `j` and `j + 1` are untouched by the vtable update loop when every
present field's slot lands at least two bytes away. -/
theorem readU16_updateVTableFields_ne (es : List FrontEntry) (root vt j : Nat) :
    ∀ bk : List Nat,
      (∀ f : Field, FrontEntry.field f ∈ es → f.offset ≠ 0 →
        bk.length - vt + 2 * (f.index - 2) + 2 ≤ j ∨
          j + 2 ≤ bk.length - vt + 2 * (f.index - 2)) →
      readU16 (updateVTableFields es root vt bk) j = readU16 bk j := by
  induction es with
  | nil => intro bk _; rfl
  | cons e rest ih =>
    intro bk hdis
    cases e with
    | field f =>
      by_cases h0 : f.offset = 0
      · simp only [updateVTableFields, h0, if_pos rfl]
        exact ih bk fun g hg => hdis g (List.mem_cons_of_mem _ hg)
      · simp only [updateVTableFields, if_neg h0]
        rw [ih _ (fun g hg => by
              rw [length_setU16]
              exact hdis g (List.mem_cons_of_mem _ hg)),
            readU16_setU16_ne]
        rcases hdis f (List.mem_cons_self _ _) h0 with hc | hc
        · exact Or.inl hc
        · exact Or.inr hc
    | vecRef r =>
      simp only [updateVTableFields]
      exact ih bk fun g hg => hdis g (List.mem_cons_of_mem _ hg)

/-- After the vtable update loop, a present field's slot holds
`uint16_t(root_offset - field.offset)`, provided present fields address
pairwise distinct slots. -/
theorem readU16_updateVTableFields_eq (root vt : Nat) (f : Field)
    (es : List FrontEntry) :
    ∀ bk : List Nat,
      FrontEntry.field f ∈ es → f.offset ≠ 0 → 2 ≤ f.index →
      es.Pairwise distinctSlots →
      (∀ g : Field, FrontEntry.field g ∈ es → g.offset ≠ 0 → 2 ≤ g.index) →
      bk.length - vt + 2 * (f.index - 2) + 1 < bk.length →
      readU16 (updateVTableFields es root vt bk)
          (bk.length - vt + 2 * (f.index - 2))
        = (((root : Int) - (f.offset : Int)) % 65536).toNat := by
  induction es with
  | nil => intro bk hmem; exact absurd hmem (List.not_mem_nil _)
  | cons e rest ih =>
    intro bk hmem hoff hidx hpair hall hlt
    rcases List.pairwise_cons.mp hpair with ⟨hhead, hrest⟩
    rcases List.mem_cons.mp hmem with he | hmem'
    · -- the head entry is this field: it is written now and never again
      subst he
      simp only [updateVTableFields, if_neg hoff]
      have hne := readU16_updateVTableFields_ne rest root vt
        (bk.length - vt + 2 * (f.index - 2))
        (setU16 bk (bk.length - vt + 2 * (f.index - 2))
          ((((root : Int) - (f.offset : Int)) % 65536).toNat))
        (fun g hg hgoff => by
          rw [length_setU16]
          have hne2 : f.index ≠ g.index :=
            hhead (FrontEntry.field g) hg hoff hgoff
          have h2g : 2 ≤ g.index :=
            hall g (List.mem_cons_of_mem _ hg) hgoff
          omega)
      rw [hne, readU16_setU16_eq _ _ _ (by omega) (emod16_lt _)]
    · -- the field sits deeper in the ledger
      cases e with
      | field g =>
        by_cases h0 : g.offset = 0
        · simp only [updateVTableFields, h0, if_pos rfl]
          exact ih bk hmem' hoff hidx hrest
            (fun g' hg' => hall g' (List.mem_cons_of_mem _ hg')) hlt
        · simp only [updateVTableFields, if_neg h0]
          have := ih (setU16 bk (bk.length - vt + 2 * (g.index - 2))
              ((((root : Int) - (g.offset : Int)) % 65536).toNat))
            hmem' hoff hidx hrest
            (fun g' hg' => hall g' (List.mem_cons_of_mem _ hg'))
            (by rw [length_setU16]; exact hlt)
          rwa [length_setU16] at this
      | vecRef r =>
        simp only [updateVTableFields]
        exact ih bk hmem' hoff hidx hrest
          (fun g' hg' => hall g' (List.mem_cons_of_mem _ hg')) hlt

theorem emod32_lt (x : Int) : (x % 4294967296).toNat < 4294967296 := by
  have h1 : 0 ≤ x % 4294967296 := Int.emod_nonneg x (by omega)
  have h2 : x % 4294967296 < 4294967296 := Int.emod_lt_of_pos x (by omega)
  omega

theorem readU16_append_add (l1 X : List Nat) (k : Nat) :
    readU16 (l1 ++ X) (l1.length + k) = readU16 X k := by
  unfold readU16
  rw [getD_append_add]
  have h : l1.length + k + 1 = l1.length + (k + 1) := by omega
  rw [h, getD_append_add]

theorem createVTable_back (vs os : Nat) (w : Writer) :
    (createVTable vs os w).2.back
      = u16le vs ++ (u16le os ++ (List.replicate (vs - 4) 0 ++ w.back)) := rfl

theorem createVTable_fst (vs os : Nat) (w : Writer) :
    (createVTable vs os w).1 = vs - 4 + w.back.length := by
  simp [createVTable, writeBackBytes]

theorem createVTable_back_length (vs os : Nat) (w : Writer) :
    (createVTable vs os w).2.back.length = vs - 4 + w.back.length + 4 := by
  simp [createVTable, writeBackBytes, u16le]

theorem le_maxField (es : List FrontEntry) :
    ∀ (w : Writer) (o m : Nat), m ≤ (writeTableFields es w o m).2.2.2 := by
  induction es with
  | nil => intro w o m; exact le_refl m
  | cons e rest ih =>
    intro w o m
    cases e with
    | field f =>
      by_cases h1 : f.size = 0 ∧ f.offset = 0
      · simp only [writeTableFields, if_pos h1]
        exact le_trans (Nat.le_max_left m f.index) (ih _ _ _)
      · by_cases h2 : f.size = 0
        · simp only [writeTableFields, if_neg h1, if_pos h2]
          exact le_trans (Nat.le_max_left m f.index) (ih _ _ _)
        · simp only [writeTableFields, if_neg h1, if_neg h2]
          exact le_trans (Nat.le_max_left m f.index) (ih _ _ _)
    | vecRef r =>
      simp only [writeTableFields]
      exact ih _ _ _

theorem getD_createVTable_zeros (vs os : Nat) (w : Writer) (k : Nat)
    (h : k < vs - 4) :
    (createVTable vs os w).2.back.getD (4 + k) 0 = 0 := by
  rw [createVTable_back, ← List.append_assoc]
  have h4 : (4 : Nat) + k = (u16le vs ++ u16le os).length + k := rfl
  rw [h4, getD_append_add, getD_append_lt _ _ _ (by simpa using h)]
  simp [List.getD, List.getElem?_replicate, h]

theorem readU16_createVTable_zeros (vs os : Nat) (w : Writer) (k : Nat)
    (h : k + 1 < vs - 4) :
    readU16 (createVTable vs os w).2.back (4 + k) = 0 := by
  unfold readU16
  rw [getD_createVTable_zeros _ _ _ _ (by omega)]
  have h4 : 4 + k + 1 = 4 + (k + 1) := by omega
  rw [h4, getD_createVTable_zeros _ _ _ _ h]

/-! ## Claim theorems -/

/-- **C5.** For every non-empty string `s`, `CreateString` produces a
back-memory region that in forward read order holds a 4-byte length equal to
`s.length()`, then the raw bytes of `s`, then a single zero terminator byte,
and returns the back-extent size as the string's position; for the empty
string it allocates no object and returns the null (zero) reference. -/
theorem createString_spec (s : List Nat) (w : Writer) :
    (s = [] → createString s w = (0, w)) ∧
    (s ≠ [] → s.length < 4294967296 →
      (createString s w).2.back = u32le s.length ++ s ++ [0] ++ w.back
      ∧ readU32 (createString s w).2.back 0 = s.length
      ∧ (createString s w).1 = (createString s w).2.back.length
      ∧ (createString s w).1 = w.back.length + s.length + 5) := by
  constructor
  · intro h
    simp [createString, h]
  · intro h hlt
    refine ⟨?_, ?_, ?_, ?_⟩
    · simp [createString, h, writeBackBytes]
    · simp only [createString, if_neg h, writeBackBytes]
      rw [readU32_u32le_append, Nat.mod_eq_of_lt hlt]
    · simp [createString, h]
    · simp [createString, h, writeBackBytes, u32le]
      omega

/-- **C6.** For every call `EndVector(mark, count)`: if `count` is 0 it
returns 0 (the null vector) and appends no count; otherwise it appends a
4-byte element count equal to `count` to back memory and returns the
back-extent size measured after the count is written as the vector's
position. -/
theorem endVector_spec (start num : Nat) (w : Writer) :
    (endVector start 0 w = (0, w)) ∧
    (num ≠ 0 → num < 4294967296 →
      (endVector start num w).2.back
        = u32le num ++ (if start ≠ w.front.length then endVectorLoop num w else w).back
      ∧ readU32 (endVector start num w).2.back 0 = num
      ∧ (endVector start num w).1 = (endVector start num w).2.back.length
      ∧ (endVector start num w).1
        = (if start ≠ w.front.length then endVectorLoop num w else w).back.length + 4) := by
  constructor
  · simp [endVector, endVectorLoop, ite_self]
  · intro h hlt
    refine ⟨?_, ?_, ?_, ?_⟩
    · simp [endVector, h, writeBackBytes]
    · simp only [endVector, if_neg h, writeBackBytes]
      rw [readU32_u32le_append, Nat.mod_eq_of_lt hlt]
    · simp [endVector, h]
    · simp [endVector, h, writeBackBytes, u32le]

/-- Witness for the hypothesis-bearing parts of `endVector_spec`. -/
theorem endVector_spec_witness :
    (3 : Nat) ≠ 0 ∧
    (endVector 0 3 ⟨[], [9]⟩).2.back = [3, 0, 0, 0, 9]
    ∧ (endVector 0 3 ⟨[], [9]⟩).1 = 5 := by
  have h := (endVector_spec 0 3 ⟨[], [9]⟩).2 (by decide) (by decide)
  exact ⟨by decide, by simpa using h.1, by simpa using h.2.2.2⟩

/-- Witness for the hypothesis-bearing parts of `createString_spec`. -/
theorem createString_spec_witness :
    ([97, 98, 99] : List Nat) ≠ [] ∧
    (createString [97, 98, 99] ⟨[], []⟩).2.back = [3, 0, 0, 0, 97, 98, 99, 0]
    ∧ (createString [97, 98, 99] ⟨[], []⟩).1 = 8 := by
  have h := (createString_spec [97, 98, 99] ⟨[], []⟩).2 (by decide) (by decide)
  exact ⟨by decide, by simpa [u32le] using h.1, by simpa using h.2.2.2⟩

/-- **C10.** Whenever a reference value exceeding the current back-extent
size is supplied to `Reference(reference, offset)`, the writer fails fast
before recording any field; for every reference value at most the current
back-extent size, the check passes and the field is recorded (the abort
branch is unreachable under that precondition). -/
theorem reference_check_spec (reference offset : Nat) (w : Writer) :
    (w.back.length < reference → referenceOp reference offset w = none) ∧
    (reference ≤ w.back.length →
      referenceOp reference offset w =
        some { w with front := w.front ++
          [.field { index := (offset / 2) % 65536, size := 0, align := 0,
                    offset := reference % 4294967296 }] }) := by
  constructor
  · intro h
    simp [referenceOp, Nat.not_le.mpr h]
  · intro h
    simp [referenceOp, h, addReferenceField, writeFront]

/-- Witness for `reference_check_spec`: a too-large reference aborts, an
in-bounds one records the field. -/
theorem reference_check_spec_witness :
    ((⟨[], []⟩ : Writer).back.length < 5 ∧ referenceOp 5 4 ⟨[], []⟩ = none)
    ∧ (1 ≤ (⟨[], [7]⟩ : Writer).back.length ∧ referenceOp 1 4 ⟨[], [7]⟩ =
        some ⟨[.field ⟨2, 0, 0, 1⟩], [7]⟩) := by
  refine ⟨⟨by decide, (reference_check_spec 5 4 ⟨[], []⟩).1 (by decide)⟩,
          ⟨by decide, ?_⟩⟩
  have h := (reference_check_spec 1 4 ⟨[], [7]⟩).2 (by decide)
  simpa using h

/-- **C9.** For every top-level `SerializeObject` call, if the front-extent
size after the full build differs from the front-extent size before it, the
condition is reported as a logged defect (a diagnostic), not a fatal error,
and the function still returns a pointer to the finished byte region; if the
sizes are equal, nothing is reported. -/
theorem serializeObject_leak_diagnostic (hook : Writer → Writer) (buffer : Writer) :
    ((serializeObject hook buffer).2.2 = true ↔
      frontBytes buffer.front ≠ frontBytes (serializeObject hook buffer).1.front)
    ∧ (serializeObject hook buffer).2.1 = (serializeObject hook buffer).1.back.length := by
  constructor
  · simp [serializeObject, bne_iff_ne]
  · rfl

/-- **C2.** For every table finished by `EndTable`, the produced vtable
consists of 16-bit entries whose first two entries are (in forward read
order) the vtable's own byte length and the object's byte length, has total
length `(maxSlot + 1) * 2` bytes where `maxSlot` is the maximum field-slot
index seen (at least 2), has all offset entries initialized to zero, and for
every non-absent field has `offsets[slot - 2]` equal to (object position)
minus (the field record's position). -/
theorem endTable_vtable_spec (w : Writer) (start : Nat)
    (es₁ : List FrontEntry) (w₁ : Writer) (osize maxF : Nat)
    (h : writeTableFields (w.front.drop start) w 0 2 = (es₁, w₁, osize, maxF))
    (hvs : (maxF + 1) * 2 < 65536) (hos : osize < 65536)
    (hidx : ∀ g : Field, FrontEntry.field g ∈ es₁ → g.offset ≠ 0 →
      2 ≤ g.index ∧ g.index ≤ maxF)
    (hpair : es₁.Pairwise distinctSlots)
    (hoffs : ∀ g : Field, FrontEntry.field g ∈ es₁ → g.offset ≠ 0 →
      g.offset ≤ w₁.back.length + 4 ∧ (w₁.back.length + 4) - g.offset < 65536) :
    2 ≤ maxF
    ∧ (endTable start w).1 = w₁.back.length + 4
    ∧ (endTable start w).2.back.length = (endTable start w).1 + (maxF + 1) * 2
    ∧ readU16 (endTable start w).2.back 0 = (maxF + 1) * 2
    ∧ readU16 (endTable start w).2.back 2 = osize
    ∧ (∀ k, k < (maxF + 1) * 2 - 4 →
        (createVTable ((maxF + 1) * 2) osize
            (writeBackBytes (u32le ((maxF + 1) * 2)) w₁)).2.back.getD (4 + k) 0 = 0)
    ∧ (∀ g : Field, FrontEntry.field g ∈ es₁ → g.offset ≠ 0 →
        readU16 (endTable start w).2.back (4 + 2 * (g.index - 2))
          = (endTable start w).1 - g.offset) := by
  have hmax2 : 2 ≤ maxF := by
    have hm := le_maxField (w.front.drop start) w 0 2
    rw [h] at hm
    exact hm
  -- abbreviations for the pipeline stages
  set vs := (maxF + 1) * 2 with hvsdef
  set wI := writeBackBytes (u32le vs) w₁ with hwIdef
  have hrootlen : wI.back.length = w₁.back.length + 4 := by
    simp [hwIdef, writeBackBytes, u32le]
  set cv := createVTable vs osize wI with hcvdef
  have hET : endTable start w
      = (wI.back.length,
         { front := w.front.take start,
           back := updateVTableFields es₁ wI.back.length cv.1 cv.2.back }) := by
    simp only [endTable, writeTable, h]
  have hbklen : cv.2.back.length = vs - 4 + wI.back.length + 4 := by
    rw [hcvdef]; exact createVTable_back_length vs osize wI
  have hvtoff : cv.1 = vs - 4 + wI.back.length := by
    rw [hcvdef]; exact createVTable_fst vs osize wI
  have hbase : cv.2.back.length - cv.1 = 4 := by omega
  refine ⟨hmax2, ?_, ?_, ?_, ?_, ?_, ?_⟩
  · rw [hET]; exact hrootlen
  · rw [hET]
    show (updateVTableFields es₁ wI.back.length cv.1 cv.2.back).length
      = wI.back.length + vs
    rw [length_updateVTableFields]
    omega
  · rw [hET]
    show readU16 (updateVTableFields es₁ wI.back.length cv.1 cv.2.back) 0 = vs
    rw [readU16_updateVTableFields_ne _ _ _ _ _ (fun g hg hgo => by
        have h2g := (hidx g hg hgo).1
        omega)]
    rw [hcvdef, createVTable_back, readU16_u16le_append, Nat.mod_eq_of_lt hvs]
  · rw [hET]
    show readU16 (updateVTableFields es₁ wI.back.length cv.1 cv.2.back) 2 = osize
    rw [readU16_updateVTableFields_ne _ _ _ _ _ (fun g hg hgo => by
        have h2g := (hidx g hg hgo).1
        omega)]
    rw [hcvdef, createVTable_back]
    have h2 : (2 : Nat) = (u16le vs).length + 0 := rfl
    rw [h2, readU16_append_add, readU16_u16le_append, Nat.mod_eq_of_lt hos]
  · intro k hk
    exact getD_createVTable_zeros vs osize wI k hk
  · intro g hg hgo
    rw [hET]
    show readU16 (updateVTableFields es₁ wI.back.length cv.1 cv.2.back)
        (4 + 2 * (g.index - 2)) = wI.back.length - g.offset
    have h2g := (hidx g hg hgo).1
    have hgm := (hidx g hg hgo).2
    have hoff1 := (hoffs g hg hgo).1
    have hoff2 := (hoffs g hg hgo).2
    have hidx4 : 4 + 2 * (g.index - 2)
        = cv.2.back.length - cv.1 + 2 * (g.index - 2) := by omega
    rw [hidx4,
        readU16_updateVTableFields_eq wI.back.length cv.1 g es₁ cv.2.back hg hgo
          h2g hpair (fun g' hg' hgo' => (hidx g' hg' hgo').1) (by omega),
        emod16_eq _ _ (by omega) (by omega)]

/-- Witness for `endTable_vtable_spec`: a table with one inline `uint32`
field at slot 2 and one reference field at slot 3. -/
theorem endTable_vtable_spec_witness :
    writeTableFields
        ((⟨[.field ⟨3, 0, 0, 2⟩, .field ⟨2, 4, 4, 6⟩], [7, 7]⟩ : Writer).front.drop 0)
        ⟨[.field ⟨3, 0, 0, 2⟩, .field ⟨2, 4, 4, 6⟩], [7, 7]⟩ 0 2
      = ([.field ⟨3, 0, 0, 6⟩, .field ⟨2, 4, 4, 6⟩],
          writeReference 2 ⟨[.field ⟨3, 0, 0, 2⟩, .field ⟨2, 4, 4, 6⟩], [7, 7]⟩, 8, 3)
    ∧ (endTable 0 ⟨[.field ⟨3, 0, 0, 2⟩, .field ⟨2, 4, 4, 6⟩], [7, 7]⟩).1 = 10
    ∧ readU16 (endTable 0 ⟨[.field ⟨3, 0, 0, 2⟩, .field ⟨2, 4, 4, 6⟩], [7, 7]⟩).2.back 0 = 8
    ∧ readU16 (endTable 0 ⟨[.field ⟨3, 0, 0, 2⟩, .field ⟨2, 4, 4, 6⟩], [7, 7]⟩).2.back 2 = 8
    ∧ readU16 (endTable 0 ⟨[.field ⟨3, 0, 0, 2⟩, .field ⟨2, 4, 4, 6⟩], [7, 7]⟩).2.back
        (4 + 2 * (2 - 2)) = 4
    ∧ readU16 (endTable 0 ⟨[.field ⟨3, 0, 0, 2⟩, .field ⟨2, 4, 4, 6⟩], [7, 7]⟩).2.back
        (4 + 2 * (3 - 2)) = 4 := by
  have h := endTable_vtable_spec ⟨[.field ⟨3, 0, 0, 2⟩, .field ⟨2, 4, 4, 6⟩], [7, 7]⟩ 0
    [.field ⟨3, 0, 0, 6⟩, .field ⟨2, 4, 4, 6⟩]
    (writeReference 2 ⟨[.field ⟨3, 0, 0, 2⟩, .field ⟨2, 4, 4, 6⟩], [7, 7]⟩) 8 3
    (by decide) (by decide) (by decide)
    (by intro g hg hgo
        simp at hg
        rcases hg with rfl | rfl <;> decide)
    (by decide)
    (by intro g hg hgo
        simp at hg
        rcases hg with rfl | rfl <;> decide)
  refine ⟨by decide, by simpa using h.2.1, by simpa using h.2.2.2.1,
    by simpa using h.2.2.2.2.1, ?_, ?_⟩
  · have h6 := h.2.2.2.2.2.2 ⟨2, 4, 4, 6⟩ (by decide) (by decide)
    simpa using h6
  · have h6 := h.2.2.2.2.2.2 ⟨3, 0, 0, 6⟩ (by decide) (by decide)
    simpa using h6

/-- The entries, writer and object size produced by the `WriteTable` loop do
not depend on the `max_field` accumulator (only the final `max_field` does). -/
theorem writeTableFields_maxField_irrel (es : List FrontEntry) :
    ∀ (w : Writer) (o m m' : Nat),
      (writeTableFields es w o m).1 = (writeTableFields es w o m').1
      ∧ (writeTableFields es w o m).2.1 = (writeTableFields es w o m').2.1
      ∧ (writeTableFields es w o m).2.2.1 = (writeTableFields es w o m').2.2.1 := by
  induction es with
  | nil => intro w o m m'; exact ⟨rfl, rfl, rfl⟩
  | cons e rest ih =>
    intro w o m m'
    cases e with
    | field f =>
      by_cases h1 : f.size = 0 ∧ f.offset = 0
      · simp only [writeTableFields, if_pos h1]
        exact ⟨by rw [(ih _ _ _ _).1], (ih _ _ _ _).2.1, (ih _ _ _ _).2.2⟩
      · by_cases h2 : f.size = 0
        · simp only [writeTableFields, if_neg h1, if_pos h2]
          exact ⟨by rw [(ih _ _ _ _).1], (ih _ _ _ _).2.1, (ih _ _ _ _).2.2⟩
        · simp only [writeTableFields, if_neg h1, if_neg h2]
          exact ⟨by rw [(ih _ _ _ _).1], (ih _ _ _ _).2.1, (ih _ _ _ _).2.2⟩
    | vecRef r =>
      simp only [writeTableFields]
      exact ⟨by rw [(ih _ _ _ _).1], (ih _ _ _ _).2.1, (ih _ _ _ _).2.2⟩

/-- Inserting a null-reference record (`size = 0`, `offset = 0`) anywhere in
the ledger changes neither the writer state nor the accumulated object size
produced by the `WriteTable` loop. -/
theorem writeTableFields_absent_insert (a : Field) (ha : a.size = 0)
    (hao : a.offset = 0) (es₂ : List FrontEntry) (es₁ : List FrontEntry) :
    ∀ (w : Writer) (o m : Nat),
      (writeTableFields (es₁ ++ .field a :: es₂) w o m).2.1
        = (writeTableFields (es₁ ++ es₂) w o m).2.1
      ∧ (writeTableFields (es₁ ++ .field a :: es₂) w o m).2.2.1
        = (writeTableFields (es₁ ++ es₂) w o m).2.2.1 := by
  induction es₁ with
  | nil =>
    intro w o m
    simp only [List.nil_append, writeTableFields, ha, hao, and_self, if_pos]
    exact ⟨(writeTableFields_maxField_irrel es₂ w o _ m).2.1,
           (writeTableFields_maxField_irrel es₂ w o _ m).2.2⟩
  | cons e rest ih =>
    intro w o m
    cases e with
    | field f =>
      by_cases h1 : f.size = 0 ∧ f.offset = 0
      · simp only [List.cons_append, writeTableFields, if_pos h1]
        exact ih _ _ _
      · by_cases h2 : f.size = 0
        · simp only [List.cons_append, writeTableFields, if_neg h1, if_pos h2]
          exact ih _ _ _
        · simp only [List.cons_append, writeTableFields, if_neg h1, if_neg h2]
          exact ih _ _ _
    | vecRef r =>
      simp only [List.cons_append, writeTableFields]
      exact ih _ _ _

/-- **C3.** For every `Field` record denoting a reference field (size 0)
whose stored position is zero, `EndTable` writes no bytes to back memory for
that field, accumulates nothing into the object size, and leaves that field's
vtable offset entry zero; consequently a table's object byte size does not
depend on how many such absent fields were recorded. -/
theorem absent_field_spec
    (a : Field) (ha : a.size = 0) (hao : a.offset = 0)
    (rest es' es'' : List FrontEntry) (w₀ : Writer) (o m : Nat)
    (w : Writer) (start : Nat)
    (es₁ : List FrontEntry) (w₁ : Writer) (osize maxF : Nat)
    (h : writeTableFields (w.front.drop start) w 0 2 = (es₁, w₁, osize, maxF))
    (j : Nat) (hj2 : 2 ≤ j) (hjm : j ≤ maxF)
    (hidx : ∀ g : Field, FrontEntry.field g ∈ es₁ → g.offset ≠ 0 → 2 ≤ g.index)
    (hnone : ∀ g : Field, FrontEntry.field g ∈ es₁ → g.offset ≠ 0 → g.index ≠ j) :
    writeTableFields (.field a :: rest) w₀ o m
      = (.field a :: (writeTableFields rest w₀ o (max m a.index)).1,
          (writeTableFields rest w₀ o (max m a.index)).2)
    ∧ readU16 (endTable start w).2.back (4 + 2 * (j - 2)) = 0
    ∧ (writeTableFields (es' ++ .field a :: es'') w₀ o m).2.1
        = (writeTableFields (es' ++ es'') w₀ o m).2.1
    ∧ (writeTableFields (es' ++ .field a :: es'') w₀ o m).2.2.1
        = (writeTableFields (es' ++ es'') w₀ o m).2.2.1 := by
  have hmax2 : 2 ≤ maxF := by
    have hm := le_maxField (w.front.drop start) w 0 2
    rw [h] at hm
    exact hm
  refine ⟨?_, ?_, (writeTableFields_absent_insert a ha hao es'' es' w₀ o m).1,
    (writeTableFields_absent_insert a ha hao es'' es' w₀ o m).2⟩
  · simp only [writeTableFields, ha, hao, and_self, if_pos]
  · -- the vtable entry at slot j is never written, hence keeps its zero init
    set vs := (maxF + 1) * 2 with hvsdef
    set wI := writeBackBytes (u32le vs) w₁ with hwIdef
    set cv := createVTable vs osize wI with hcvdef
    have hET : endTable start w
        = (wI.back.length,
           { front := w.front.take start,
             back := updateVTableFields es₁ wI.back.length cv.1 cv.2.back }) := by
      simp only [endTable, writeTable, h]
    have hbklen : cv.2.back.length = vs - 4 + wI.back.length + 4 := by
      rw [hcvdef]; exact createVTable_back_length vs osize wI
    have hvtoff : cv.1 = vs - 4 + wI.back.length := by
      rw [hcvdef]; exact createVTable_fst vs osize wI
    rw [hET]
    show readU16 (updateVTableFields es₁ wI.back.length cv.1 cv.2.back)
        (4 + 2 * (j - 2)) = 0
    rw [readU16_updateVTableFields_ne _ _ _ _ _ (fun g hg hgo => by
        have h2g := hidx g hg hgo
        have hne := hnone g hg hgo
        omega)]
    rw [hcvdef]
    exact readU16_createVTable_zeros vs osize wI (2 * (j - 2)) (by omega)

/-- Witness for `absent_field_spec`: a ledger holding one absent reference
record at slot 3 and one present inline field at slot 2; slot 3's vtable
entry reads zero, and deleting the absent record leaves the loop's writer
and object size unchanged. -/
theorem absent_field_spec_witness :
    (Field.mk 3 0 0 0).size = 0 ∧ (Field.mk 3 0 0 0).offset = 0
    ∧ writeTableFields
        ((⟨[.field ⟨3, 0, 0, 0⟩, .field ⟨2, 4, 4, 4⟩], []⟩ : Writer).front.drop 0)
        ⟨[.field ⟨3, 0, 0, 0⟩, .field ⟨2, 4, 4, 4⟩], []⟩ 0 2
      = ([.field ⟨3, 0, 0, 0⟩, .field ⟨2, 4, 4, 4⟩],
          ⟨[.field ⟨3, 0, 0, 0⟩, .field ⟨2, 4, 4, 4⟩], []⟩, 4, 3)
    ∧ readU16 (endTable 0 ⟨[.field ⟨3, 0, 0, 0⟩, .field ⟨2, 4, 4, 4⟩], []⟩).2.back
        (4 + 2 * (3 - 2)) = 0
    ∧ (writeTableFields ([] ++ .field ⟨3, 0, 0, 0⟩ :: [.field ⟨2, 4, 4, 4⟩])
        ⟨[], []⟩ 0 2).2.2.1
      = (writeTableFields ([] ++ [.field ⟨2, 4, 4, 4⟩]) ⟨[], []⟩ 0 2).2.2.1 := by
  have h := absent_field_spec ⟨3, 0, 0, 0⟩ (by decide) (by decide)
    [.field ⟨2, 4, 4, 4⟩] [] [.field ⟨2, 4, 4, 4⟩] ⟨[], []⟩ 0 2
    ⟨[.field ⟨3, 0, 0, 0⟩, .field ⟨2, 4, 4, 4⟩], []⟩ 0
    [.field ⟨3, 0, 0, 0⟩, .field ⟨2, 4, 4, 4⟩]
    ⟨[.field ⟨3, 0, 0, 0⟩, .field ⟨2, 4, 4, 4⟩], []⟩ 4 3
    (by decide) 3 (by decide) (by decide)
    (by intro g hg hgo
        simp at hg
        rcases hg with rfl | rfl <;> decide)
    (by intro g hg hgo
        simp at hg
        rcases hg with rfl | rfl <;> revert hgo <;> decide)
  exact ⟨by decide, by decide, by decide, by simpa using h.2.1, by decide⟩

/-- Appending element images at back while iterating a sequence prepends
them, so the folded-over-reverse iteration lays the images out in original
order. -/
theorem vector_foldr_back {α : Type} (enc : α → List Nat) :
    ∀ (value : List α) (w : Writer),
      value.foldr (fun x y => addVectorValue (enc x) y) w
        = { w with back := (value.map enc).flatten ++ w.back } := by
  intro value
  induction value with
  | nil => intro w; simp
  | cons v vs ih =>
    intro w
    rw [List.foldr_cons, ih w]
    simp [addVectorValue, writeBackBytes, List.flatten_cons, List.append_assoc]

/-- The reverse iteration of `VectorOfScalars` in fold form. -/
theorem vector_fold_back {α : Type} (enc : α → List Nat) (value : List α)
    (w : Writer) :
    value.reverse.foldl (fun acc v => addVectorValue (enc v) acc) w
      = { w with back := (value.map enc).flatten ++ w.back } := by
  rw [List.foldl_reverse]
  exact vector_foldr_back enc value w

/-- Reading the `i`-th fixed-width chunk of a concatenation of fixed-width
blocks yields the `i`-th block. -/
theorem join_fixed_extract (k : Nat) :
    ∀ (l : List (List Nat)), (∀ b ∈ l, b.length = k) →
      ∀ i (h : i < l.length), ((l.flatten).drop (k * i)).take k = l.get ⟨i, h⟩ := by
  intro l
  induction l with
  | nil => intro _ i h; exact absurd h (by simp)
  | cons b rest ih =>
    intro hk i h
    cases i with
    | zero =>
      have hb := hk b (List.mem_cons_self _ _)
      simp only [List.flatten_cons, Nat.mul_zero, List.drop_zero, ← hb,
        List.take_left, List.get]
    | succ i =>
      have hb := hk b (List.mem_cons_self _ _)
      have hstep : k * (i + 1) = b.length + k * i := by
        rw [Nat.mul_succ, hb]; omega
      rw [List.flatten_cons, hstep, List.drop_append]
      exact ih (fun c hc => hk c (List.mem_cons_of_mem _ hc)) i (by simpa using h)

/-- **C7.** For every vector of scalars or structs, elements are appended
into back memory in reverse of the input sequence's order during iteration,
so that the finished vector region read forward holds the elements in the
original input order: for every input sequence and every index `i`, the
`i`-th element of the encoded vector equals the `i`-th input element. -/
theorem vectorOfScalars_order {α : Type} (enc : α → List Nat) (k : Nat)
    (value : List α) (offset : Nat) (w : Writer)
    (hk : ∀ x : α, (enc x).length = k)
    (hne : value ≠ []) (hlt : value.length < 4294967296) :
    (vectorOfScalars enc value offset w).back
      = u32le value.length ++ ((value.map enc).flatten ++ w.back)
    ∧ readU32 (vectorOfScalars enc value offset w).back 0 = value.length
    ∧ ∀ i (h : i < value.length),
        (((value.map enc).flatten).drop (k * i)).take k = enc (value.get ⟨i, h⟩) := by
  have hnum : value.length ≠ 0 := by
    simpa [List.length_eq_zero] using hne
  have hback : (vectorOfScalars enc value offset w).back
      = u32le value.length ++ ((value.map enc).flatten ++ w.back) := by
    simp only [vectorOfScalars, startMark, List.foldl_reverse]
    rw [vector_foldr_back]
    simp [endVector, hnum, addReferenceField, writeFront, writeBackBytes]
  refine ⟨hback, ?_, ?_⟩
  · rw [hback, readU32_u32le_append, Nat.mod_eq_of_lt hlt]
  · intro i h
    have hall : ∀ b ∈ value.map enc, b.length = k := by
      intro b hb
      rcases List.mem_map.mp hb with ⟨x, _, rfl⟩
      exact hk x
    rw [join_fixed_extract k (value.map enc) hall i (by simpa using h)]
    simp [List.get_eq_getElem]

/-- Witness for `vectorOfScalars_order`: the vector `{10, 20, 30}` of
`uint32` scalars decodes in original order. -/
theorem vectorOfScalars_order_witness :
    (vectorOfScalars u32le [10, 20, 30] 4 ⟨[], []⟩).back
      = [3, 0, 0, 0, 10, 0, 0, 0, 20, 0, 0, 0, 30, 0, 0, 0]
    ∧ readU32 (vectorOfScalars u32le [10, 20, 30] 4 ⟨[], []⟩).back 0 = 3
    ∧ ((([10, 20, 30].map u32le).flatten).drop (4 * 1)).take 4 = u32le 20 := by
  have h := vectorOfScalars_order u32le 4 [10, 20, 30] 4 ⟨[], []⟩
    (fun x => rfl) (by decide) (by decide)
  refine ⟨?_, by simpa using h.2.1, ?_⟩
  · rw [h.1]; decide
  · have h3 := h.2.2 1 (by decide)
    simpa using h3

/-- `EndTable` leaves everything below the table mark on the front ledger. -/
theorem endTable_front (start : Nat) (w : Writer) :
    (endTable start w).2.front = w.front.take start := rfl

/-- **C8.** For every union field write: a discriminant scalar equal to the
union's type value is recorded at slot `(offset - 2) / 2`; when the
discriminant is the none value 0, the reference slot at `offset` is written
as null (a zero reference); when the discriminant is non-zero, the active
variant is serialized as a nested table and its finalized table position is
recorded as the reference at `offset`. -/
theorem union_spec (typeVal : Nat) (encBytes : List Nat) (talign offset : Nat)
    (hook : Writer → Writer) (w wd : Writer)
    (hwd : wd = addValueField ((offset - 2) / 2) encBytes.length talign encBytes w)
    (hhook : ∀ u : Writer, ∃ added, (hook u).front = u.front ++ added) :
    (∃ p, wd.front = w.front ++
        [.field { index := ((offset - 2) / 2) % 65536,
                  size := encBytes.length % 256, align := talign % 256,
                  offset := p }])
    ∧ (typeVal = 0 → unionField typeVal encBytes talign hook offset w
        = addReferenceField (offset / 2) 0 wd)
    ∧ (typeVal = 0 → (unionField typeVal encBytes talign hook offset w).front
        = wd.front ++ [.field { index := (offset / 2) % 65536, size := 0,
                                align := 0, offset := 0 }])
    ∧ (typeVal ≠ 0 → unionField typeVal encBytes talign hook offset w
        = addReferenceField (offset / 2)
            (endTable wd.front.length (hook wd)).1
            (endTable wd.front.length (hook wd)).2)
    ∧ (typeVal ≠ 0 → (unionField typeVal encBytes talign hook offset w).front
        = wd.front ++
          [.field { index := (offset / 2) % 65536, size := 0, align := 0,
                    offset := (endTable wd.front.length (hook wd)).1 % 4294967296 }]) := by
  subst hwd
  refine ⟨?_, ?_, ?_, ?_, ?_⟩
  · exact ⟨(writeBackBytes encBytes (prealign talign w)).back.length % 4294967296, rfl⟩
  · intro h
    simp [unionField, h]
  · intro h
    simp [unionField, h, addReferenceField, writeFront]
  · intro h
    simp [unionField, h]
  · intro h
    simp only [unionField, if_neg h, addReferenceField, writeFront, endTable_front]
    obtain ⟨added, hadd⟩ := hhook
      (addValueField ((offset - 2) / 2) encBytes.length talign encBytes w)
    rw [hadd, List.take_left]

/-- Witness for `union_spec`: a one-byte discriminant of value 5 (an active
variant whose hook writes no fields) and, separately, the value 0 (none). -/
theorem union_spec_witness :
    (⟨[.field ⟨2, 1, 1, 1⟩], [5]⟩ : Writer)
      = addValueField ((6 - 2) / 2) [5].length 1 [5] ⟨[], []⟩
    ∧ (unionField 0 [5] 1 id 6 ⟨[], []⟩).front
      = [.field ⟨2, 1, 1, 1⟩, .field ⟨3, 0, 0, 0⟩]
    ∧ (unionField 5 [5] 1 id 6 ⟨[], []⟩).front
      = [.field ⟨2, 1, 1, 1⟩,
         .field ⟨3, 0, 0, (endTable 1 (id (⟨[.field ⟨2, 1, 1, 1⟩], [5]⟩ : Writer))).1 % 4294967296⟩] := by
  have h0 := union_spec 0 [5] 1 6 id ⟨[], []⟩ ⟨[.field ⟨2, 1, 1, 1⟩], [5]⟩
    (by decide) (fun u => ⟨[], by simp⟩)
  have h5 := union_spec 5 [5] 1 6 id ⟨[], []⟩ ⟨[.field ⟨2, 1, 1, 1⟩], [5]⟩
    (by decide) (fun u => ⟨[], by simp⟩)
  refine ⟨by decide, ?_, ?_⟩
  · have := h0.2.2.1 rfl
    simpa using this
  · have := h5.2.2.2.2 (by decide)
    simpa using this

/-- **C4 counterexample.** A table with a 1-byte field (slot 2) written
before an 8-byte field (slot 3): the 8-byte field's byte offset within the
finished object — its vtable entry, `objectPosition - record.position` — is
4, which is not a multiple of its natural alignment 8.  (`Prealign` aligns
the field's position relative to the buffer *end*, not within the object:
the trailing `int32_t` vtable offset and the other fields shift the object
root by amounts that need not be multiples of 8.) -/
theorem mixed_alignment_counterexample :
    (addValueField 3 8 8 [0, 0, 0, 0, 0, 0, 0, 0]
        (addValueField 2 1 1 [7] ⟨[], []⟩)).front
      = [.field ⟨2, 1, 1, 1⟩, .field ⟨3, 8, 8, 16⟩]
    ∧ (endTable 0 (addValueField 3 8 8 [0, 0, 0, 0, 0, 0, 0, 0]
        (addValueField 2 1 1 [7] ⟨[], []⟩))).1 = 20
    ∧ readU16 (endTable 0 (addValueField 3 8 8 [0, 0, 0, 0, 0, 0, 0, 0]
        (addValueField 2 1 1 [7] ⟨[], []⟩))).2.back (4 + 2 * (3 - 2)) = 4
    ∧ ¬ 4 % 8 = 0 := by
  refine ⟨by decide, by decide, by decide, by decide⟩

/-- **C4 (amended).** For every scalar or struct field written into a table,
the field's recorded back-extent position — its byte distance from the back
end of the buffer — is a multiple of the field type's natural alignment
(provided, as for every C++ type, the value's byte size is a multiple of its
alignment, and the alignment divides 2^32 so the `uint32_t` cast preserves
divisibility).  The offset within the finished table object need not be a
multiple (see `mixed_alignment_counterexample`). -/
theorem addValueField_aligned (index size align : Nat) (bytes : List Nat)
    (w : Writer) (h1 : 0 < align) (h2 : align ∣ bytes.length)
    (h3 : align ∣ 4294967296) :
    ∃ f : Field,
      (addValueField index size align bytes w).front.getLast? = some (.field f)
      ∧ f.offset % align = 0 := by
  refine ⟨{ index := index % 65536, size := size % 256, align := align % 256,
            offset := (writeBackBytes bytes (prealign align w)).back.length % 4294967296 },
          ?_, ?_⟩
  · simp [addValueField, writeFront, List.getLast?_concat]
  · show (writeBackBytes bytes (prealign align w)).back.length % 4294967296 % align = 0
    rw [Nat.mod_mod_of_dvd _ h3]
    have hp := prealign_back_mod align h1 w
    have hdvd : align ∣ (writeBackBytes bytes (prealign align w)).back.length := by
      simp only [writeBackBytes, List.length_append]
      exact Nat.dvd_add h2 (Nat.dvd_of_mod_eq_zero hp)
    exact Nat.mod_eq_zero_of_dvd hdvd

/-- **C1.** For every reference finalized by `EndTable` (a `Field` record
with size 0 and non-zero stored position), the writer writes a 4-byte value
equal to (back-extent size immediately after the 4-byte slot is written)
minus (the referent's recorded position), then updates that record's position
to the new back-extent size and adds 4 bytes to the accumulated object size;
the root reference written by `Finish` uses the same computation. -/
theorem reference_finalization_spec (f : Field) (rest : List FrontEntry)
    (w : Writer) (o m root : Nat) (w₂ : Writer)
    (hsz : f.size = 0) (hoff : f.offset ≠ 0)
    (hle : f.offset ≤ w.back.length) (hfit : w.back.length + 4 < 4294967296)
    (hle₂ : root ≤ w₂.back.length) (hfit₂ : w₂.back.length + 4 < 4294967296) :
    (writeReference f.offset w).back.length = w.back.length + 4
    ∧ readU32 (writeReference f.offset w).back 0 = (w.back.length + 4) - f.offset
    ∧ writeTableFields (.field f :: rest) w o m =
        (.field { f with offset := w.back.length + 4 } ::
            (writeTableFields rest (writeReference f.offset w) (o + 4) (max m f.index)).1,
          (writeTableFields rest (writeReference f.offset w) (o + 4) (max m f.index)).2)
    ∧ finish root w₂ = writeReference root w₂
    ∧ readU32 (finish root w₂).back 0 = (w₂.back.length + 4) - root := by
  have hval : ∀ (u : Writer) (r : Nat), r ≤ u.back.length → u.back.length + 4 < 4294967296 →
      readU32 (writeReference r u).back 0 = (u.back.length + 4) - r := by
    intro u r hr hf
    simp only [writeReference, writeBackBytes]
    rw [readU32_u32le_append]
    rw [emod32_eq (u.back.length + 4) r (by omega) (by omega)]
    exact Nat.mod_eq_of_lt (by omega)
  refine ⟨?_, hval w f.offset hle hfit, ?_, rfl, hval w₂ root hle₂ hfit₂⟩
  · simp [writeReference, writeBackBytes, u32le]
  · simp only [writeTableFields, hsz, hoff, and_false, if_neg, false_and,
      not_false_eq_true, if_pos]
    have hlen : (writeReference f.offset w).back.length % 4294967296
        = w.back.length + 4 := by
      have h1 : (writeReference f.offset w).back.length = w.back.length + 4 := by
        simp [writeReference, writeBackBytes, u32le]
      rw [h1]
      exact Nat.mod_eq_of_lt hfit
    rw [hlen]

/-- Witness for `reference_finalization_spec` at a concrete ledger state. -/
theorem reference_finalization_spec_witness :
    (Field.mk 2 0 0 3).size = 0 ∧ (Field.mk 2 0 0 3).offset ≠ 0
    ∧ readU32 (writeReference 3 ⟨[], [9, 9, 9]⟩).back 0 = 4
    ∧ writeTableFields [.field ⟨2, 0, 0, 3⟩] ⟨[], [9, 9, 9]⟩ 0 2 =
        ([.field ⟨2, 0, 0, 7⟩], writeReference 3 ⟨[], [9, 9, 9]⟩, 4, 2)
    ∧ readU32 (finish 3 ⟨[], [1, 2, 3]⟩).back 0 = 4 := by
  have h := reference_finalization_spec ⟨2, 0, 0, 3⟩ [] ⟨[], [9, 9, 9]⟩ 0 2 3
    ⟨[], [1, 2, 3]⟩ (by decide) (by decide) (by decide) (by decide)
    (by decide) (by decide)
  refine ⟨by decide, by decide, by simpa using h.2.1, ?_, by simpa using h.2.2.2.2⟩
  have h3 := h.2.2.1
  simp only [h3]
  decide

/-- Witness for `addValueField_aligned`: an 8-byte field written after a
1-byte field still lands at an 8-aligned distance from the buffer end. -/
theorem addValueField_aligned_witness :
    0 < 8 ∧ (8 : Nat) ∣ 8 ∧ (8 : Nat) ∣ 4294967296 ∧
    ∃ f : Field,
      (addValueField 3 8 8 [0, 0, 0, 0, 0, 0, 0, 0]
          (addValueField 2 1 1 [7] ⟨[], []⟩)).front.getLast? = some (.field f)
      ∧ f.offset % 8 = 0 :=
  ⟨by decide, by decide, ⟨536870912, by decide⟩,
    addValueField_aligned 3 8 8 [0, 0, 0, 0, 0, 0, 0, 0]
      (addValueField 2 1 1 [7] ⟨[], []⟩) (by decide) (by decide)
      ⟨536870912, by decide⟩⟩

end Lull
